import Mathlib

/-
Verification of the stemmed-word index of the word_tree_search repository
(src/datatypes.py, src/tree.py).

Embedding conventions:
* Python strings are embedded as `List Char` (`Str`).
* Python dicts are embedded as insertion-ordered association lists:
  lookup scans from the front, an update rewrites the value in place,
  an insert of a fresh key appends at the end (CPython dict semantics).
* Python object identity is embedded as an explicit numeric id on each
  heap object (`Sentence.sid`, `Word.wid`, `Article.aid`); the word
  registry allocates fresh `wid`s from a counter in `RegState`.
* The external Snowball stemmer is an abstract parameter
  `stemF : Str → Str` (spec section 6: deterministic black box).
* Fallible Python code (statements that can raise) is embedded in
  `Except PyErr`.  In particular `Sentence` is a mutable dataclass with
  `eq=True`/`frozen=False` and no explicit hash, so CPython sets its
  `__hash__` to `None` and `set(sentences)` raises `TypeError` as soon
  as it hashes the first element; `set([])` hashes nothing.
-/

namespace WTS

/-- Python `str` is a sequence of characters. -/
abbrev Str := List Char

/-- Embedding of `datatypes.Sentence` as seen by the search layer:
`sid` models object identity, `articleId` the `article` back-reference,
`text` the preprocessed text, `words` the ids of the Word objects in
`Sentence.words` (one Word object per stem by the singleton). -/
structure Sentence where
  sid : Nat
  articleId : Nat
  text : Str
  words : List Nat
deriving DecidableEq

/-- Embedding of `datatypes.Word`: `wid` models object identity,
`forms` the `forms` dict (surface form → sentence list, insertion
ordered), `count` the `count` attribute. -/
structure Word where
  wid : Nat
  stem : Str
  forms : List (Str × List Sentence)
  count : Nat
deriving DecidableEq

/-- One `Word(stem, word_form, sentence)` construction, i.e. one call of
the `WordSingleton.__call__` get-or-create entry point. -/
structure Call where
  stem : Str
  form : Str
  sentence : Sentence
deriving DecidableEq

/-- The global registry `WordSingleton._words` plus the allocation
counter that models CPython object identity of Word instances. -/
structure RegState where
  words : List (Str × Word)
  nextId : Nat
deriving DecidableEq

/-- Registry state at process start: `_words = {}`. -/
def emptyReg : RegState := ⟨[], 0⟩

/-- Python exceptions that the embedded code paths can raise. -/
inductive PyErr where
  | typeErrorUnhashable
  | recursionError
deriving DecidableEq

/-- Python dict lookup `d[k]` / `k in d`: scan the entries in insertion
order for the first matching key. -/
def dictGet {α β : Type} [DecidableEq α] : List (α × β) → α → Option β
  | [], _ => none
  | (k, v) :: rest, key => if k = key then some v else dictGet rest key

/-- Python dict assignment `d[k] = v`: rewrite the value in place if the
key is present, otherwise append the new entry at the end. -/
def dictSet {α β : Type} [DecidableEq α] : List (α × β) → α → β → List (α × β)
  | [], k, v => [(k, v)]
  | (k', v') :: rest, k, v =>
    if k' = k then (k', v) :: rest else (k', v') :: dictSet rest k v

/-- `WordSingleton.__append_form_and_sentence` minus the count bump:
append the sentence to the existing form list, or create the form entry
with a one-element list. -/
def appendFormSentence (forms : List (Str × List Sentence)) (form : Str)
    (s : Sentence) : List (Str × List Sentence) :=
  match dictGet forms form with
  | some l => dictSet forms form (l ++ [s])
  | none => forms ++ [(form, [s])]

/-- `WordSingleton.__call__`: if the stem is registered, mutate the
existing Word (append form/sentence, `count += 1`) and return it;
otherwise run `Word.__init__`, which sets `forms = {word_form:
[sentence]}` and `count = 1` (`self.count += 1` reads the class
attribute default `0`), and store the fresh object under the stem. -/
def getOrCreate (st : RegState) (c : Call) : RegState × Word :=
  match dictGet st.words c.stem with
  | some w =>
    let w' : Word := ⟨w.wid, w.stem, appendFormSentence w.forms c.form c.sentence, w.count + 1⟩
    (⟨dictSet st.words c.stem w', st.nextId⟩, w')
  | none =>
    let w : Word := ⟨st.nextId, c.stem, [(c.form, [c.sentence])], 1⟩
    (⟨st.words ++ [(c.stem, w)], st.nextId + 1⟩, w)

/-- Run a sequence of `Word(...)` constructions against the registry,
starting from the empty process-start state. -/
def runCalls (cs : List Call) : RegState :=
  cs.foldl (fun st c => (getOrCreate st c).1) emptyReg

/-- Embedding of `tree.Node`.  `char` is a Python string (the root uses
`''`), `children` the char-keyed dict of child nodes, `word` the
optional Word at a node terminating a stem.  The `parent` back-reference
is used only by the interactive `traverse` console loop, which no search
path reads, so it is omitted from the tree value. -/
inductive Node where
  | mk (char : Str) (children : List (Char × Node)) (word : Option Word)

/-- Character of a node. -/
def Node.char : Node → Str
  | .mk c _ _ => c

/-- Children dict of a node. -/
def Node.children : Node → List (Char × Node)
  | .mk _ ch _ => ch

/-- Word stored at a node. -/
def Node.word : Node → Option Word
  | .mk _ _ w => w

/-- One iteration bundle of `WordTree.__build`'s inner loop: walk the
stem character by character from `n`, creating a child node for any
character not yet present, and set the terminal node's `word`. -/
def insertStem : Node → Str → Word → Node
  | .mk ch children _, [], w => .mk ch children (some w)
  | .mk ch children w0, c :: rest, w =>
    match dictGet children c with
    | some child => .mk ch (dictSet children c (insertStem child rest w)) w0
    | none => .mk ch (children ++ [(c, insertStem (.mk [c] [] none) rest w)]) w0

/-- Python's `sorted` comparison on strings: lexicographic over the
code points. -/
def lexLe : Str → Str → Bool
  | [], _ => true
  | _ :: _, [] => false
  | a :: as, b :: bs => if a = b then lexLe as bs else decide (a < b)

/-- Insert into a sorted key list (used to embed `sorted`). -/
def insertSortedKey (x : Str) : List Str → List Str
  | [] => [x]
  | y :: ys => if lexLe x y then x :: y :: ys else y :: insertSortedKey x ys

/-- Embedding of `sorted(Word.words.keys())`: a sort by `lexLe`. -/
def sortKeys : List Str → List Str
  | [] => []
  | x :: xs => insertSortedKey x (sortKeys xs)

/-- One outer-loop iteration of `WordTree.__build`: insert one stem and
set its terminal node to `self._words[stem]`.  The `none` branch is
unreachable (the keys come from the same dict, so the Python indexing
never raises `KeyError`). -/
def buildStep (reg : RegState) (root : Node) (s : Str) : Node :=
  match dictGet reg.words s with
  | some w => insertStem root s w
  | none => root

/-- `WordTree.__build`: for each stem of `sorted(Word.words.keys())`, in
order, walk/create nodes from the root and set the terminal node's
`word`, starting from the root `Node('')`. -/
def buildTree (reg : RegState) : Node :=
  (sortKeys (reg.words.map Prod.fst)).foldl (buildStep reg) (.mk [] [] none)

/-- The character-by-character walk of `WordTree.search`: follow the
children dicts, `none` when a character is missing. -/
def walk : Node → Str → Option Node
  | n, [] => some n
  | n, c :: rest =>
    match dictGet n.children c with
    | some child => walk child rest
    | none => none

/-- Word found at the end of a full walk, if any. -/
def trieFind (n : Node) (cs : Str) : Option Word :=
  match walk n cs with
  | some m => m.word
  | none => none

/-- The nested `for form in forms: for sentence in forms[form]: append`
loops of `WordTree.search`: concatenate the per-form sentence lists in
dict (form first-insertion) order. -/
def flattenForms : List (Str × List Sentence) → List Sentence
  | [] => []
  | (_, l) :: rest => l ++ flattenForms rest

/-- The single-word branch of `WordTree.search`: stem the query, walk
the trie, return `[]` on a missing character or a terminal node with no
word, otherwise flatten the word's forms. -/
def searchWord (root : Node) (stemF : Str → Str) (q : Str) : List Sentence :=
  match trieFind root (stemF q) with
  | some w => flattenForms w.forms
  | none => []

/-- Python `phrase.split(' ')`: split at every single space, keeping
empty pieces. -/
def splitOnSpace : Str → List Str
  | [] => [[]]
  | c :: rest =>
    match splitOnSpace rest with
    | [] => [[]]
    | w :: ws => if c = ' ' then [] :: w :: ws else (c :: w) :: ws

/-- Python `set(sentences)` on a list of Sentence objects: `set()`
hashes every element, and `Sentence` (a mutable dataclass with the
default `eq=True`, no `frozen`, no explicit `__hash__`) has
`__hash__ = None`, so hashing any element raises
`TypeError: unhashable type`.  An empty iterable hashes nothing. -/
def pySetOfSentences (l : List Sentence) : Except PyErr (List Sentence) :=
  match l with
  | [] => .ok []
  | _ :: _ => .error .typeErrorUnhashable

/-- The first loop of `WordTree.__search_by_phrase`: for each word, run
the single-word search (the split pieces contain no space, so the
recursive `self.search(word)` call takes the single-word branch); an
empty result is the Python `return []` (embedded as `ok none`),
otherwise build the per-word set. -/
def collectPhraseSets (root : Node) (stemF : Str → Str) :
    List Str → Except PyErr (Option (List (List Sentence)))
  | [] => .ok (some [])
  | w :: ws => do
    let sentences := searchWord root stemF w
    match sentences with
    | [] => return none
    | _ :: _ => do
      let s ← pySetOfSentences sentences
      let rest? ← collectPhraseSets root stemF ws
      match rest? with
      | none => return none
      | some rest => return (s :: rest)

/-- `result[0].intersection(*result[1:])`: elements of the first set
that lie in every other set.  (Python set iteration order is
implementation defined; this code path is dead because every nonempty
`set(...)` above raises first.) -/
def setIntersectAll : List (List Sentence) → List Sentence
  | [] => []
  | s :: rest => rest.foldl (fun acc t => acc.filter (fun x => decide (x ∈ t))) s

/-- `WordTree.__is_next_to_each_other`: stem the query words, split the
sentence text on spaces and stem the pieces, then test every window
`sentence_stems[i:i+len(stems)]` for `i in range(len(sentence_stems) -
len(stems) + 1)`; the `Nat` expression `L + 1 - K` equals the Python
`max(L - K + 1, 0)` range length. -/
def isNextToEachOther (stemF : Str → Str) (words : List Str)
    (sentence : Sentence) : Bool :=
  let stems := words.map stemF
  let sentenceStems := (splitOnSpace sentence.text).map stemF
  (List.range (sentenceStems.length + 1 - stems.length)).any
    (fun i => decide ((sentenceStems.drop i).take stems.length = stems))

/-- `WordTree.__search_by_phrase`: split the phrase on spaces, gather
the per-word sentence sets (returning `[]` as soon as a word has no
sentences), intersect them and keep the candidates whose stemmed tokens
contain the stemmed phrase as a contiguous run. -/
def searchByPhrase (root : Node) (stemF : Str → Str) (phrase : Str) :
    Except PyErr (List Sentence) := do
  let words := splitOnSpace phrase
  let sets? ← collectPhraseSets root stemF words
  match sets? with
  | none => return []
  | some sets =>
    let cands := setIntersectAll sets
    return cands.filter (fun s => isNextToEachOther stemF words s)

/-- `WordTree.search`: queries containing a space go to the phrase
search, the rest to the single-word branch. -/
def search (root : Node) (stemF : Str → Str) (q : Str) :
    Except PyErr (List Sentence) :=
  if ' ' ∈ q then searchByPhrase root stemF q
  else .ok (searchWord root stemF q)

/-- Embedding of `datatypes.Article`: `aid` models object identity, the
remaining fields are the dataclass fields in declaration order
(`authors`, `title`, `text`, `sentences`). -/
structure Article where
  aid : Nat
  authors : List Str
  title : Str
  text : Str
  sentences : List Sentence
deriving DecidableEq

/-- Python `==` on two Article values as used by the dict in
`Word.articles`.  `Article` keeps its hand-written `__hash__` over
`(title, tuple(authors))` but inherits the dataclass `__eq__`, which
compares the field tuple `(authors, title, text, sentences)` in order,
after CPython's identity shortcut.  The sentence lists compare lengths
first, then elementwise with an identity shortcut per element; a pair
of non-identical Sentence elements compares its `article` fields first,
which are the two articles being compared (each sentence back-references
its owner), so that comparison recurses on the same pair forever and
raises `RecursionError`. -/
def articleEqPy (a b : Article) : Except PyErr Bool :=
  if a.aid = b.aid then .ok true
  else if ¬ (a.authors = b.authors) then .ok false
  else if ¬ (a.title = b.title) then .ok false
  else if ¬ (a.text = b.text) then .ok false
  else if ¬ (a.sentences.length = b.sentences.length) then .ok false
  else if (a.sentences.zip b.sentences).all (fun p => p.1.sid = p.2.sid) then .ok true
  else .error .recursionError

/-- Python `==` on two Sentence values (dataclass field tuple in order
`article`, `text`, `words`, after the identity shortcut).  The `words`
lists hold Word objects; by the registry singleton two distinct Word
objects always have distinct stems, so Word equality coincides with
identity and the lists compare as id lists. -/
def sentenceEqPy (getA : Nat → Article) (s t : Sentence) : Except PyErr Bool :=
  if s.sid = t.sid then .ok true
  else do
    let ab ← articleEqPy (getA s.articleId) (getA t.articleId)
    if ¬ ab then return false
    else if ¬ (s.text = t.text) then return false
    else return decide (s.words = t.words)

/-- Python `sentence not in articles[article][form]` (negated): list
membership stops at the first element comparing equal, propagating any
exception the comparison raises. -/
def pyContainsSentence (getA : Nat → Article) :
    List Sentence → Sentence → Except PyErr Bool
  | [], _ => .ok false
  | x :: rest, s => do
    let b ← sentenceEqPy getA x s
    if b then return true else pyContainsSentence getA rest s

/-- The dict update of one `Word.articles` loop iteration: find the
entry whose Article key compares `==` to the sentence's article (the
membership test plus indexing of the Python code), then add the
(form, sentence) pair to that group, or append a fresh
`{article: {form: [sentence]}}` entry when no key matches. -/
def updateArticles (getA : Nat → Article) (a : Article) (form : Str)
    (s : Sentence) :
    List (Article × List (Str × List Sentence)) →
    Except PyErr (List (Article × List (Str × List Sentence)))
  | [] => .ok [(a, [(form, [s])])]
  | (k, grp) :: rest => do
    let b ← articleEqPy k a
    if b then
      match dictGet grp form with
      | some l => do
        let c ← pyContainsSentence getA l s
        if c then return (k, grp) :: rest
        else return (k, dictSet grp form (l ++ [s])) :: rest
      | none => return (k, grp ++ [(form, [s])]) :: rest
    else do
      let rest' ← updateArticles getA a form s rest
      return (k, grp) :: rest'

/-- Inner sentence loop of `Word.articles` over one form's list. -/
def articlesOfForm (getA : Nat → Article) (form : Str) :
    List Sentence → List (Article × List (Str × List Sentence)) →
    Except PyErr (List (Article × List (Str × List Sentence)))
  | [], acc => .ok acc
  | s :: rest, acc => do
    let acc' ← updateArticles getA (getA s.articleId) form s acc
    articlesOfForm getA form rest acc'

/-- Outer form loop of `Word.articles`. -/
def articlesLoop (getA : Nat → Article) :
    List (Str × List Sentence) → List (Article × List (Str × List Sentence)) →
    Except PyErr (List (Article × List (Str × List Sentence)))
  | [], acc => .ok acc
  | (form, sentences) :: rest, acc => do
    let acc' ← articlesOfForm getA form sentences acc
    articlesLoop getA rest acc'

/-- `Word.articles`: group every (form, sentence) pair of `forms` by
the sentence's owning article, walking forms and sentences in insertion
order, starting from the empty dict. -/
def wordArticles (getA : Nat → Article) (w : Word) :
    Except PyErr (List (Article × List (Str × List Sentence))) :=
  articlesLoop getA w.forms []

/-- Number of get-or-create calls made with a given stem. -/
def countStemCalls (cs : List Call) (st : Str) : Nat :=
  (cs.filter (fun c => decide (c.stem = st))).length

/-- Number of get-or-create calls made with a given (stem, form) pair. -/
def countFormCalls (cs : List Call) (st fm : Str) : Nat :=
  (cs.filter (fun c => decide (c.stem = st) && decide (c.form = fm))).length

/-- `count` attribute of the Word registered under a stem (0 when the
stem is unregistered). -/
def wordCountAt (reg : RegState) (st : Str) : Nat :=
  match dictGet reg.words st with
  | some w => w.count
  | none => 0

/-- `len(forms[form])` of the Word registered under a stem (0 when the
stem or the form is absent). -/
def formLenAt (reg : RegState) (st fm : Str) : Nat :=
  match dictGet reg.words st with
  | some w =>
    match dictGet w.forms fm with
    | some l => l.length
    | none => 0
  | none => 0

/-- The get-or-create calls made with a given stem, in call order. -/
def callsFor (cs : List Call) (st : Str) : List Call :=
  cs.filter (fun c => decide (c.stem = st))

/-- First-occurrence deduplication of a list (keep the first copy of
each value, drop the later ones, preserving order). -/
def dedupFirst : List Str → List Str
  | [] => []
  | x :: xs => x :: (dedupFirst xs).filter (fun y => decide (¬ (y = x)))

/-- History-level description of a Word's `forms` dict: one entry per
form in the order the forms first occurred, each carrying the sentences
of the calls made with that form, in call order. -/
def groupForms (l : List Call) : List (Str × List Sentence) :=
  (dedupFirst (l.map Call.form)).map
    (fun f => (f, (l.filter (fun c => decide (c.form = f))).map Call.sentence))

/-- Occurrences of a sentence in a list (by value; `Sentence` values
carry their object id, so this is also identity-based). -/
def countS (x : Sentence) (l : List Sentence) : Nat :=
  (l.filter (fun y => decide (y = x))).length

/-- Occurrences of a sentence among the sentences of a call list. -/
def countCallS (x : Sentence) (l : List Call) : Nat :=
  (l.filter (fun c => decide (c.sentence = x))).length

/-- Identity stemmer: a concrete instance of the external stemmer under
which every query is already a stem (stems are fixed points). -/
def stemId : Str → Str := fun s => s

/-- Concrete stemmer instance realising the spec's phrase-search
example: the Snowball russian stems of сидит and окне (кот and на are
their own stems). -/
def ruStem : Str → Str := fun w =>
  if w = ['с','и','д','и','т'] then ['с','и','д']
  else if w = ['о','к','н','е'] then ['о','к','н']
  else w

/-- Witness fixture: one sentence and one registry call for C1. -/
def sC1 : Sentence := ⟨11, 0, ['d','o','g'], []⟩

/-- Witness fixture call for C1. -/
def callC1 : Call := ⟨['d','o','g'], ['d','o','g'], sC1⟩

/-- The Word the registry allocates for `callC1`. -/
def wC1 : Word := ⟨0, ['d','o','g'], [(['d','o','g'], [sC1])], 1⟩

/-- Counterexample fixture sentence for C4: its word occurs in the two
forms cat and cats, both stemming to cat. -/
def sC4 : Sentence := ⟨4, 0, ['c','a','t',' ','c','a','t','s'], []⟩

/-- Counterexample fixture calls for C4: same stem, two forms, the same
sentence both times. -/
def callsC4 : List Call :=
  [⟨['c','a','t'], ['c','a','t'], sC4⟩,
   ⟨['c','a','t'], ['c','a','t','s'], sC4⟩]

/-- The spec's example sentence кот сидит на окне. -/
def sC5 : Sentence :=
  ⟨5, 0, ['к','о','т',' ','с','и','д','и','т',' ','н','а',' ','о','к','н','е'], []⟩

/-- Registry calls indexing the example sentence under its four stems. -/
def callsC5 : List Call :=
  [⟨['к','о','т'], ['к','о','т'], sC5⟩,
   ⟨['с','и','д'], ['с','и','д','и','т'], sC5⟩,
   ⟨['н','а'], ['н','а'], sC5⟩,
   ⟨['о','к','н'], ['о','к','н','е'], sC5⟩]

/-- The phrase query кот сидит. -/
def qC5 : Str := ['к','о','т',' ','с','и','д','и','т']

/-- The reversed phrase query сидит кот. -/
def qC5rev : Str := ['с','и','д','и','т',' ','к','о','т']

/-- Fixture sentences for C6: word a occurs in sentences 1,2,3 and word
b in sentences 2,3,4. -/
def sC6one : Sentence := ⟨61, 0, ['a',' ','b'], []⟩

/-- Second C6 sentence. -/
def sC6two : Sentence := ⟨62, 0, ['a',' ','b'], []⟩

/-- Third C6 sentence. -/
def sC6three : Sentence := ⟨63, 0, ['a',' ','b'], []⟩

/-- Fourth C6 sentence. -/
def sC6four : Sentence := ⟨64, 0, ['a',' ','b'], []⟩

/-- Registry calls for C6. -/
def callsC6 : List Call :=
  [⟨['a'], ['a'], sC6one⟩, ⟨['a'], ['a'], sC6two⟩, ⟨['a'], ['a'], sC6three⟩,
   ⟨['b'], ['b'], sC6two⟩, ⟨['b'], ['b'], sC6three⟩, ⟨['b'], ['b'], sC6four⟩]

/-- Fixture sentence for C7. -/
def sC7 : Sentence := ⟨7, 0, ['c','a','t'], []⟩

/-- Registry call for C7: only the word cat is registered. -/
def callsC7 : List Call := [⟨['c','a','t'], ['c','a','t'], sC7⟩]

/-- Witness fixture sentence for C8. -/
def sC8 : Sentence := ⟨8, 0, ['f','o','x'], []⟩

/-- Witness fixture call for C8. -/
def callC8 : Call := ⟨['f','o','x'], ['f','o','x'], sC8⟩

/-- The Word the registry allocates for `callC8`. -/
def wC8 : Word := ⟨0, ['f','o','x'], [(['f','o','x'], [sC8])], 1⟩

/-- Fixture sentence for C9. -/
def sC9 : Sentence := ⟨9, 0, ['a','a'], []⟩

/-- Registry call for C9. -/
def callsC9 : List Call := [⟨['a','a'], ['a','a'], sC9⟩]

/-- Witness fixture sentences for C10. -/
def sC10a : Sentence := ⟨20, 0, ['r','u','n'], []⟩

/-- Second C10 fixture sentence. -/
def sC10b : Sentence := ⟨21, 0, ['r','a','n'], []⟩

/-- Registry calls for C10: one stem, two forms, three occurrences. -/
def callsC10 : List Call :=
  [⟨['r','u','n'], ['r','u','n'], sC10a⟩,
   ⟨['r','u','n'], ['r','a','n'], sC10b⟩,
   ⟨['r','u','n'], ['r','u','n'], sC10b⟩]

/-- C3 fixture: a sentence owned by the first article. -/
def sC3a : Sentence := ⟨30, 1, ['u'], []⟩

/-- C3 fixture: a sentence owned by the second article. -/
def sC3b : Sentence := ⟨31, 2, ['v'], []⟩

/-- C3 fixture article: same title and authors as `bC3`, body text x. -/
def aC3 : Article := ⟨1, [['i','v']], ['t','i'], ['x'], [sC3a]⟩

/-- C3 fixture article: same title and authors as `aC3`, body text y. -/
def bC3 : Article := ⟨2, [['i','v']], ['t','i'], ['y'], [sC3b]⟩

/-- C3 fixture heap: resolves the article back-references. -/
def envC3 : Nat → Article := fun n => if n = 1 then aC3 else bC3

/-- C3 fixture word: one form whose two occurrence sentences belong to
the two different article objects. -/
def wC3 : Word := ⟨0, ['u'], [(['k'], [sC3a, sC3b])], 2⟩

section DictLemmas

variable {α β : Type} [DecidableEq α]

theorem dictGet_append_of_none {l₁ : List (α × β)} {k : α}
    (h : dictGet l₁ k = none) (l₂ : List (α × β)) :
    dictGet (l₁ ++ l₂) k = dictGet l₂ k := by
  induction l₁ with
  | nil => rfl
  | cons p rest ih =>
    obtain ⟨k', v'⟩ := p
    by_cases hk : k' = k
    · simp [dictGet, hk] at h
    · simp only [dictGet, if_neg hk] at h
      simp only [List.cons_append, dictGet, if_neg hk]
      exact ih h

theorem dictGet_append_of_some {l₁ : List (α × β)} {k : α} {v : β}
    (h : dictGet l₁ k = some v) (l₂ : List (α × β)) :
    dictGet (l₁ ++ l₂) k = some v := by
  induction l₁ with
  | nil => simp [dictGet] at h
  | cons p rest ih =>
    obtain ⟨k', v'⟩ := p
    by_cases hk : k' = k
    · simp only [dictGet, if_pos hk] at h
      simp only [List.cons_append, dictGet, if_pos hk]
      exact h
    · simp only [dictGet, if_neg hk] at h
      simp only [List.cons_append, dictGet, if_neg hk]
      exact ih h

theorem dictGet_dictSet_self (l : List (α × β)) (k : α) (v : β) :
    dictGet (dictSet l k v) k = some v := by
  induction l with
  | nil => simp [dictGet, dictSet]
  | cons p rest ih =>
    obtain ⟨k', v'⟩ := p
    by_cases hk : k' = k
    · simp [dictSet, dictGet, hk]
    · simp [dictSet, dictGet, hk, ih]

theorem dictGet_dictSet_ne (l : List (α × β)) {k k' : α} (v : β)
    (h : k' ≠ k) : dictGet (dictSet l k v) k' = dictGet l k' := by
  have hkk : ¬ (k = k') := fun hh => h hh.symm
  induction l with
  | nil => simp [dictGet, dictSet, hkk]
  | cons p rest ih =>
    obtain ⟨k₀, v₀⟩ := p
    by_cases hk : k₀ = k
    · simp [dictSet, dictGet, hk, hkk]
    · by_cases hk2 : k₀ = k'
      · simp [dictSet, dictGet, hk, hk2, h]
      · simp [dictSet, dictGet, hk, hk2, ih]

theorem keys_dictSet_of_mem {l : List (α × β)} {k : α} {v₀ : β}
    (h : dictGet l k = some v₀) (v : β) :
    (dictSet l k v).map Prod.fst = l.map Prod.fst := by
  induction l with
  | nil => simp [dictGet] at h
  | cons p rest ih =>
    obtain ⟨k', v'⟩ := p
    by_cases hk : k' = k
    · simp [dictSet, hk]
    · simp only [dictGet, if_neg hk] at h
      simp [dictSet, hk, ih h]

theorem dictGet_eq_none_iff {l : List (α × β)} {k : α} :
    dictGet l k = none ↔ k ∉ l.map Prod.fst := by
  induction l with
  | nil => simp [dictGet]
  | cons p rest ih =>
    obtain ⟨k', v'⟩ := p
    by_cases hk : k' = k
    · simp [dictGet, hk]
    · have hkk : ¬ (k = k') := fun hh => hk hh.symm
      simp only [dictGet, if_neg hk, List.map_cons, List.mem_cons]
      rw [ih]
      tauto

theorem dictGet_isSome_iff {l : List (α × β)} {k : α} :
    (dictGet l k).isSome ↔ k ∈ l.map Prod.fst := by
  cases h : dictGet l k with
  | some v =>
    simp only [Option.isSome_some, true_iff]
    by_contra hmem
    rw [dictGet_eq_none_iff.mpr hmem] at h
    exact Option.noConfusion h
  | none =>
    simp [dictGet_eq_none_iff.mp h]

theorem dictGet_append_singleton_ne {l : List (α × β)} {k k' : α} (v : β)
    (h : k' ≠ k) : dictGet (l ++ [(k, v)]) k' = dictGet l k' := by
  have hkk : ¬ (k = k') := fun hh => h hh.symm
  cases h2 : dictGet l k' with
  | some v' => exact dictGet_append_of_some h2 _
  | none =>
    rw [dictGet_append_of_none h2]
    simp [dictGet, hkk]

end DictLemmas

theorem mem_insertSortedKey {q x : Str} {l : List Str} :
    q ∈ insertSortedKey x l ↔ q = x ∨ q ∈ l := by
  induction l with
  | nil => simp [insertSortedKey]
  | cons y ys ih =>
    by_cases h : lexLe x y
    · simp [insertSortedKey, h]
    · simp [insertSortedKey, h, ih]
      tauto

theorem mem_sortKeys {q : Str} {l : List Str} :
    q ∈ sortKeys l ↔ q ∈ l := by
  induction l with
  | nil => simp [sortKeys]
  | cons x xs ih => simp [sortKeys, mem_insertSortedKey, ih]

theorem trieFind_cons (n : Node) (c : Char) (cs : Str) :
    trieFind n (c :: cs) =
      match dictGet n.children c with
      | some child => trieFind child cs
      | none => none := by
  cases h : dictGet n.children c <;> simp [trieFind, walk, h]

theorem trieFind_insertStem_self (n : Node) (cs : Str) (w : Word) :
    trieFind (insertStem n cs w) cs = some w := by
  induction cs generalizing n with
  | nil => cases n with
    | mk ch children w0 => simp [insertStem, trieFind, walk, Node.word]
  | cons c rest ih =>
    cases n with
    | mk ch children w0 =>
      cases h : dictGet children c with
      | some child =>
        rw [trieFind_cons]
        simp [insertStem, h, Node.children, dictGet_dictSet_self, ih]
      | none =>
        rw [trieFind_cons]
        simp [insertStem, h, Node.children,
          dictGet_append_of_none h [(c, insertStem (.mk [c] [] none) rest w)],
          dictGet, ih]

theorem trieFind_insertStem_fresh (cs : Str) (w : Word) :
    ∀ (ds : Str) (a : Str), ds ≠ cs →
      trieFind (insertStem (Node.mk a [] none) cs w) ds = none := by
  induction cs with
  | nil =>
    intro ds a hne
    cases ds with
    | nil => exact absurd rfl hne
    | cons d ds' => simp [insertStem, trieFind_cons, Node.children, dictGet]
  | cons c rest ih =>
    intro ds a hne
    cases ds with
    | nil => simp [insertStem, dictGet, trieFind, walk, Node.word]
    | cons d ds' =>
      by_cases hdc : d = c
      · subst hdc
        have hne' : ds' ≠ rest := by
          intro h
          exact hne (by rw [h])
        simp [insertStem, dictGet, trieFind_cons, Node.children, ih ds' _ hne']
      · have hcd : ¬ (c = d) := fun hh => hdc hh.symm
        simp [insertStem, dictGet, trieFind_cons, Node.children, hcd]

theorem trieFind_insertStem_ne (n : Node) (cs : Str) (w : Word) :
    ∀ (ds : Str), ds ≠ cs →
      trieFind (insertStem n cs w) ds = trieFind n ds := by
  induction cs generalizing n with
  | nil =>
    intro ds hne
    cases ds with
    | nil => exact absurd rfl hne
    | cons d ds' =>
      cases n with
      | mk ch children w0 =>
        simp [insertStem, trieFind_cons, Node.children]
  | cons c rest ih =>
    intro ds hne
    cases n with
    | mk ch children w0 =>
      cases ds with
      | nil =>
        cases h : dictGet children c <;>
          simp [insertStem, h, trieFind, walk, Node.word]
      | cons d ds' =>
        by_cases hdc : d = c
        · subst hdc
          have hne' : ds' ≠ rest := by
            intro h
            exact hne (by rw [h])
          cases h : dictGet children d with
          | some child =>
            simp [insertStem, h, trieFind_cons, Node.children,
              dictGet_dictSet_self, ih child ds' hne']
          | none =>
            simp [insertStem, h, trieFind_cons, Node.children,
              dictGet_append_of_none h, dictGet,
              trieFind_insertStem_fresh rest w ds' [d] hne']
        · cases h : dictGet children c with
          | some child =>
            simp [insertStem, h, trieFind_cons, Node.children,
              dictGet_dictSet_ne children _ hdc]
          | none =>
            have hcd : ¬ (c = d) := fun hh => hdc hh.symm
            have hget : dictGet (children ++ [(c, insertStem (.mk [c] [] none) rest w)]) d
                = dictGet children d := by
              cases h2 : dictGet children d with
              | some v => exact dictGet_append_of_some h2 _
              | none =>
                rw [dictGet_append_of_none h2]
                simp [dictGet, hcd]
            simp [insertStem, h, trieFind_cons, Node.children, hget]

theorem trieFind_root_empty (q : Str) :
    trieFind (Node.mk [] [] none) q = none := by
  cases q with
  | nil => simp [trieFind, walk, Node.word]
  | cons c rest => simp [trieFind_cons, Node.children, dictGet]

theorem trieFind_buildStep_self (reg : RegState) (root : Node) (q : Str) :
    trieFind (buildStep reg root q) q =
      match dictGet reg.words q with
      | some w => some w
      | none => trieFind root q := by
  unfold buildStep
  cases h : dictGet reg.words q with
  | some w => simp [trieFind_insertStem_self]
  | none => rfl

theorem trieFind_buildStep_ne (reg : RegState) (root : Node) {s q : Str}
    (h : q ≠ s) : trieFind (buildStep reg root s) q = trieFind root q := by
  unfold buildStep
  cases hh : dictGet reg.words s with
  | some w => exact trieFind_insertStem_ne root s w q h
  | none => rfl

theorem trieFind_buildFold (reg : RegState) (stems : List Str) :
    ∀ (root : Node) (q : Str),
      trieFind (stems.foldl (buildStep reg) root) q =
        if (dictGet reg.words q).isSome ∧ q ∈ stems then dictGet reg.words q
        else trieFind root q := by
  induction stems with
  | nil =>
    intro root q
    simp
  | cons s rest ih =>
    intro root q
    rw [List.foldl_cons, ih]
    by_cases hmem : (dictGet reg.words q).isSome ∧ q ∈ rest
    · rw [if_pos hmem, if_pos ⟨hmem.1, List.mem_cons_of_mem s hmem.2⟩]
    · rw [if_neg hmem]
      by_cases hsq : q = s
      · subst hsq
        rw [trieFind_buildStep_self]
        cases h : dictGet reg.words q with
        | some w =>
          rw [if_pos ⟨by simp [h], List.mem_cons_self q rest⟩]
        | none =>
          rw [if_neg (by simp [h])]
      · rw [trieFind_buildStep_ne reg root hsq]
        have hcond : ¬ ((dictGet reg.words q).isSome ∧ q ∈ s :: rest) := by
          rintro ⟨h1, h2⟩
          rcases List.mem_cons.mp h2 with h3 | h3
          · exact hsq h3
          · exact hmem ⟨h1, h3⟩
        rw [if_neg hcond]

theorem runCalls_append (cs ds : List Call) :
    runCalls (cs ++ ds) =
      ds.foldl (fun st c => (getOrCreate st c).1) (runCalls cs) := by
  unfold runCalls
  rw [List.foldl_append]

theorem runCalls_append_singleton (cs : List Call) (c : Call) :
    runCalls (cs ++ [c]) = (getOrCreate (runCalls cs) c).1 := by
  rw [runCalls_append]
  rfl

theorem wordCountAt_getOrCreate (reg : RegState) (c : Call) (st : Str) :
    wordCountAt (getOrCreate reg c).1 st =
      wordCountAt reg st + (if c.stem = st then 1 else 0) := by
  unfold getOrCreate wordCountAt
  by_cases hst : c.stem = st
  · subst hst
    cases h : dictGet reg.words c.stem with
    | some w => simp [h, dictGet_dictSet_self]
    | none => simp [h, dictGet_append_of_none h, dictGet]
  · have hst' : st ≠ c.stem := fun hh => hst hh.symm
    cases h : dictGet reg.words c.stem with
    | some w => simp [h, dictGet_dictSet_ne _ _ hst', hst]
    | none => simp [h, dictGet_append_singleton_ne _ hst', hst]

theorem dictGet_appendFormSentence_self (fs : List (Str × List Sentence))
    (f : Str) (s : Sentence) :
    dictGet (appendFormSentence fs f s) f =
      some ((match dictGet fs f with | some l => l | none => []) ++ [s]) := by
  unfold appendFormSentence
  cases h : dictGet fs f with
  | some l => simp [dictGet_dictSet_self]
  | none =>
    rw [dictGet_append_of_none h]
    simp [dictGet]

theorem dictGet_appendFormSentence_ne (fs : List (Str × List Sentence))
    {f fm : Str} (s : Sentence) (h : fm ≠ f) :
    dictGet (appendFormSentence fs f s) fm = dictGet fs fm := by
  unfold appendFormSentence
  cases h2 : dictGet fs f with
  | some l => exact dictGet_dictSet_ne _ _ h
  | none => exact dictGet_append_singleton_ne _ h

theorem formLenAt_getOrCreate (reg : RegState) (c : Call) (st fm : Str) :
    formLenAt (getOrCreate reg c).1 st fm =
      formLenAt reg st fm + (if c.stem = st ∧ c.form = fm then 1 else 0) := by
  unfold getOrCreate formLenAt
  by_cases hst : c.stem = st
  · subst hst
    cases h : dictGet reg.words c.stem with
    | some w =>
      simp only [h, dictGet_dictSet_self]
      by_cases hfm : c.form = fm
      · subst hfm
        rw [dictGet_appendFormSentence_self]
        cases h2 : dictGet w.forms c.form <;> simp [h2]
      · have hfm' : fm ≠ c.form := fun hh => hfm hh.symm
        rw [dictGet_appendFormSentence_ne _ _ hfm']
        cases h2 : dictGet w.forms fm <;> simp [h2, hfm]
    | none =>
      simp only [h, dictGet_append_of_none h, dictGet, if_pos rfl]
      by_cases hfm : c.form = fm
      · subst hfm
        simp [dictGet]
      · have hfm' : ¬ (c.form = fm) := hfm
        simp [dictGet, hfm']
  · have hst' : st ≠ c.stem := fun hh => hst hh.symm
    cases h : dictGet reg.words c.stem with
    | some w => simp [h, dictGet_dictSet_ne _ _ hst', hst]
    | none => simp [h, dictGet_append_singleton_ne _ hst', hst]

theorem countStemCalls_append_singleton (cs : List Call) (c : Call) (st : Str) :
    countStemCalls (cs ++ [c]) st =
      countStemCalls cs st + (if c.stem = st then 1 else 0) := by
  unfold countStemCalls
  rw [List.filter_append]
  by_cases h : c.stem = st <;> simp [h]

theorem countFormCalls_append_singleton (cs : List Call) (c : Call)
    (st fm : Str) :
    countFormCalls (cs ++ [c]) st fm =
      countFormCalls cs st fm + (if c.stem = st ∧ c.form = fm then 1 else 0) := by
  unfold countFormCalls
  rw [List.filter_append]
  by_cases h1 : c.stem = st
  · by_cases h2 : c.form = fm <;> simp [h1, h2]
  · simp [h1]

theorem wordCountAt_runCalls (cs : List Call) (st : Str) :
    wordCountAt (runCalls cs) st = countStemCalls cs st := by
  induction cs using List.reverseRecOn with
  | nil => rfl
  | append_singleton cs c ih =>
    rw [runCalls_append_singleton, wordCountAt_getOrCreate, ih,
      countStemCalls_append_singleton]

theorem formLenAt_runCalls (cs : List Call) (st fm : Str) :
    formLenAt (runCalls cs) st fm = countFormCalls cs st fm := by
  induction cs using List.reverseRecOn with
  | nil => rfl
  | append_singleton cs c ih =>
    rw [runCalls_append_singleton, formLenAt_getOrCreate, ih,
      countFormCalls_append_singleton]

theorem dictGet_getOrCreate_self (reg : RegState) (c : Call) :
    dictGet ((getOrCreate reg c).1).words c.stem = some (getOrCreate reg c).2 := by
  unfold getOrCreate
  cases hg : dictGet reg.words c.stem with
  | some w => simp [dictGet_dictSet_self]
  | none => simp [dictGet_append_of_none hg, dictGet]

theorem dictGet_getOrCreate_ne (reg : RegState) (c : Call) {st : Str}
    (h : st ≠ c.stem) :
    dictGet ((getOrCreate reg c).1).words st = dictGet reg.words st := by
  unfold getOrCreate
  cases hg : dictGet reg.words c.stem with
  | some w => simp [dictGet_dictSet_ne _ _ h]
  | none => simp [dictGet_append_singleton_ne _ h]

theorem getOrCreate_ret_of_some (reg : RegState) (c : Call) (w : Word)
    (h : dictGet reg.words c.stem = some w) :
    (getOrCreate reg c).2 =
      ⟨w.wid, w.stem, appendFormSentence w.forms c.form c.sentence, w.count + 1⟩ := by
  unfold getOrCreate
  rw [h]

theorem getOrCreate_ret_of_none (reg : RegState) (c : Call)
    (h : dictGet reg.words c.stem = none) :
    (getOrCreate reg c).2 = ⟨reg.nextId, c.stem, [(c.form, [c.sentence])], 1⟩ := by
  unfold getOrCreate
  rw [h]

theorem keys_getOrCreate (reg : RegState) (c : Call) :
    ((getOrCreate reg c).1).words.map Prod.fst =
      match dictGet reg.words c.stem with
      | some _ => reg.words.map Prod.fst
      | none => reg.words.map Prod.fst ++ [c.stem] := by
  unfold getOrCreate
  cases hg : dictGet reg.words c.stem with
  | some w => simp [keys_dictSet_of_mem hg]
  | none => simp

theorem keys_nodup_runCalls (cs : List Call) :
    (((runCalls cs).words).map Prod.fst).Nodup := by
  induction cs using List.reverseRecOn with
  | nil => simp [runCalls, emptyReg]
  | append_singleton cs c ih =>
    rw [runCalls_append_singleton, keys_getOrCreate]
    cases hg : dictGet (runCalls cs).words c.stem with
    | some w => exact ih
    | none =>
      have hnotin : c.stem ∉ (runCalls cs).words.map Prod.fst :=
        dictGet_eq_none_iff.mp hg
      simp [List.nodup_append, ih, hnotin]

theorem stem_eq_key_runCalls (cs : List Call) :
    ∀ (st : Str) (w : Word),
      dictGet (runCalls cs).words st = some w → w.stem = st := by
  induction cs using List.reverseRecOn with
  | nil =>
    intro st w h
    simp [runCalls, emptyReg, dictGet] at h
  | append_singleton cs c ih =>
    intro st w h
    rw [runCalls_append_singleton] at h
    by_cases hst : st = c.stem
    · subst hst
      rw [dictGet_getOrCreate_self] at h
      have hw := Option.some.inj h
      cases hg : dictGet (runCalls cs).words c.stem with
      | some w0 =>
        rw [getOrCreate_ret_of_some _ _ _ hg] at hw
        rw [← hw]
        exact ih c.stem w0 hg
      | none =>
        rw [getOrCreate_ret_of_none _ _ hg] at hw
        rw [← hw]
    · rw [dictGet_getOrCreate_ne _ _ hst] at h
      exact ih st w h

theorem getOrCreate_preserves (reg : RegState) (c : Call) {st : Str} {w : Word}
    (h : dictGet reg.words st = some w) :
    ∃ w', dictGet ((getOrCreate reg c).1).words st = some w'
      ∧ w'.wid = w.wid ∧ w'.stem = w.stem := by
  by_cases hst : st = c.stem
  · subst hst
    refine ⟨(getOrCreate reg c).2, dictGet_getOrCreate_self reg c, ?_, ?_⟩
    · rw [getOrCreate_ret_of_some reg c w h]
    · rw [getOrCreate_ret_of_some reg c w h]
  · refine ⟨w, ?_, rfl, rfl⟩
    rw [dictGet_getOrCreate_ne reg c hst]
    exact h

theorem runCalls_stable (cs ds : List Call) :
    ∀ (st : Str) (w : Word), dictGet (runCalls cs).words st = some w →
      ∃ w', dictGet (runCalls (cs ++ ds)).words st = some w'
        ∧ w'.wid = w.wid ∧ w'.stem = w.stem := by
  induction ds generalizing cs with
  | nil =>
    intro st w h
    exact ⟨w, by simpa using h, rfl, rfl⟩
  | cons d ds ih =>
    intro st w h
    obtain ⟨w1, hw1, hid1, hstem1⟩ := getOrCreate_preserves (runCalls cs) d h
    rw [← runCalls_append_singleton] at hw1
    obtain ⟨w2, hw2, hid2, hstem2⟩ := ih (cs ++ [d]) st w1 hw1
    have heq : (cs ++ [d]) ++ ds = cs ++ d :: ds := by simp
    rw [heq] at hw2
    exact ⟨w2, hw2, hid2.trans hid1, hstem2.trans hstem1⟩

theorem mem_dedupFirst {x : Str} {l : List Str} : x ∈ dedupFirst l ↔ x ∈ l := by
  induction l with
  | nil => simp [dedupFirst]
  | cons a l ih =>
    by_cases hxa : x = a
    · simp [dedupFirst, hxa]
    · simp [dedupFirst, hxa, List.mem_filter, ih]

theorem nodup_dedupFirst (l : List Str) : (dedupFirst l).Nodup := by
  induction l with
  | nil => simp [dedupFirst]
  | cons a l ih =>
    simp only [dedupFirst, List.nodup_cons]
    constructor
    · intro hmem
      have := (List.mem_filter.mp hmem).2
      simp at this
    · exact ih.filter _

theorem dedupFirst_cons (a : Str) (l : List Str) :
    dedupFirst (a :: l) =
      a :: (dedupFirst l).filter (fun y => decide (¬ (y = a))) := rfl

theorem dedupFirst_append_of_not_mem {l : List Str} {x : Str} (h : x ∉ l) :
    dedupFirst (l ++ [x]) = dedupFirst l ++ [x] := by
  induction l with
  | nil => simp [dedupFirst]
  | cons a l ih =>
    have hxa : ¬ (x = a) := fun hh => h (hh ▸ List.mem_cons_self a l)
    have hxl : x ∉ l := fun hh => h (List.mem_cons_of_mem a hh)
    rw [List.cons_append, dedupFirst_cons, dedupFirst_cons, ih hxl,
      List.filter_append]
    simp [hxa]

theorem dedupFirst_append_of_mem {l : List Str} {x : Str} (h : x ∈ l) :
    dedupFirst (l ++ [x]) = dedupFirst l := by
  induction l with
  | nil => simp at h
  | cons a l ih =>
    by_cases hxl : x ∈ l
    · rw [List.cons_append, dedupFirst_cons, dedupFirst_cons, ih hxl]
    · have hxa : x = a := by
        rcases List.mem_cons.mp h with hh | hh
        · exact hh
        · exact absurd hh hxl
      subst hxa
      rw [List.cons_append, dedupFirst_cons, dedupFirst_cons,
        dedupFirst_append_of_not_mem hxl, List.filter_append]
      simp

theorem dictGet_map_pair {β : Type} (g : Str → β) (fs : List Str) (k : Str) :
    dictGet (fs.map (fun f => (f, g f))) k =
      if k ∈ fs then some (g k) else none := by
  induction fs with
  | nil => simp [dictGet]
  | cons a fs ih =>
    by_cases hak : a = k
    · subst hak
      simp [dictGet]
    · have hka : ¬ (k = a) := fun hh => hak hh.symm
      simp [dictGet, hak, hka, ih]

theorem dictSet_map_pair {β : Type} (g : Str → β) (fs : List Str) (k : Str)
    (v : β) (hnd : fs.Nodup) (hmem : k ∈ fs) :
    dictSet (fs.map (fun f => (f, g f))) k v =
      fs.map (fun f => (f, if f = k then v else g f)) := by
  induction fs with
  | nil => simp at hmem
  | cons a fs ih =>
    rw [List.nodup_cons] at hnd
    by_cases hak : a = k
    · subst hak
      have hstep : dictSet ((a, g a) :: fs.map (fun f => (f, g f))) a v
          = (a, v) :: fs.map (fun f => (f, g f)) := by
        simp [dictSet]
      rw [List.map_cons, hstep, List.map_cons, if_pos rfl]
      congr 1
      apply List.map_congr_left
      intro f hf
      have hfa : ¬ (f = a) := fun hh => hnd.1 (hh ▸ hf)
      simp [hfa]
    · have hmem' : k ∈ fs := by
        rcases List.mem_cons.mp hmem with hh | hh
        · exact absurd hh.symm hak
        · exact hh
      simp only [List.map_cons, dictSet, if_neg hak, ih hnd.2 hmem']

theorem appendFormSentence_of_get_some (fs : List (Str × List Sentence))
    (f : Str) (s : Sentence) {l : List Sentence} (h : dictGet fs f = some l) :
    appendFormSentence fs f s = dictSet fs f (l ++ [s]) := by
  unfold appendFormSentence
  rw [h]

theorem appendFormSentence_of_get_none (fs : List (Str × List Sentence))
    (f : Str) (s : Sentence) (h : dictGet fs f = none) :
    appendFormSentence fs f s = fs ++ [(f, [s])] := by
  unfold appendFormSentence
  rw [h]

theorem callsFor_append_singleton (cs : List Call) (c : Call) (st : Str) :
    callsFor (cs ++ [c]) st =
      callsFor cs st ++ if c.stem = st then [c] else [] := by
  unfold callsFor
  rw [List.filter_append]
  by_cases h : c.stem = st <;> simp [h]

theorem groupForms_append_singleton (l : List Call) (c : Call) :
    groupForms (l ++ [c]) = appendFormSentence (groupForms l) c.form c.sentence := by
  by_cases hmem : c.form ∈ l.map Call.form
  · have hmemd : c.form ∈ dedupFirst (l.map Call.form) := mem_dedupFirst.mpr hmem
    have hget : dictGet (groupForms l) c.form =
        some ((l.filter (fun c' => decide (c'.form = c.form))).map Call.sentence) := by
      unfold groupForms
      rw [dictGet_map_pair, if_pos hmemd]
    rw [appendFormSentence_of_get_some _ _ _ hget]
    unfold groupForms
    rw [List.map_append, List.map_cons, List.map_nil,
      dedupFirst_append_of_mem hmem,
      dictSet_map_pair _ _ _ _ (nodup_dedupFirst _) hmemd]
    apply List.map_congr_left
    intro f hf
    rw [List.filter_append]
    by_cases hcf : f = c.form
    · subst hcf
      simp
    · have hfc : ¬ (c.form = f) := fun hh => hcf hh.symm
      simp [hfc, hcf]
  · have hmemd : c.form ∉ dedupFirst (l.map Call.form) :=
      fun hh => hmem (mem_dedupFirst.mp hh)
    have hfil : l.filter (fun c' => decide (c'.form = c.form)) = [] := by
      rw [List.filter_eq_nil_iff]
      intro c' hc'
      simp only [decide_eq_true_eq]
      intro hh
      exact hmem (hh ▸ List.mem_map_of_mem Call.form hc')
    have hget : dictGet (groupForms l) c.form = none := by
      unfold groupForms
      rw [dictGet_map_pair, if_neg hmemd]
    rw [appendFormSentence_of_get_none _ _ _ hget]
    unfold groupForms
    rw [List.map_append, List.map_cons, List.map_nil,
      dedupFirst_append_of_not_mem hmem, List.map_append]
    congr 1
    · apply List.map_congr_left
      intro f hf
      have hf' : f ∈ l.map Call.form := mem_dedupFirst.mp hf
      have hne : ¬ (c.form = f) := fun hh => hmem (hh ▸ hf')
      rw [List.filter_append]
      simp [hne]
    · simp [List.filter_append, hfil]

theorem runCalls_forms_spec (cs : List Call) :
    ∀ (st : Str),
      (∀ w, dictGet (runCalls cs).words st = some w →
        w.forms = groupForms (callsFor cs st))
      ∧ (dictGet (runCalls cs).words st = none → callsFor cs st = []) := by
  induction cs using List.reverseRecOn with
  | nil =>
    intro st
    constructor
    · intro w h
      simp [runCalls, emptyReg, dictGet] at h
    · intro h
      rfl
  | append_singleton cs c ih =>
    intro st
    rw [runCalls_append_singleton, callsFor_append_singleton]
    by_cases hst : st = c.stem
    · subst hst
      constructor
      · intro w h
        rw [dictGet_getOrCreate_self] at h
        have hw := Option.some.inj h
        rw [if_pos rfl]
        cases hg : dictGet (runCalls cs).words c.stem with
        | some w0 =>
          rw [getOrCreate_ret_of_some _ _ _ hg] at hw
          rw [← hw]
          show appendFormSentence w0.forms c.form c.sentence =
            groupForms (callsFor cs c.stem ++ [c])
          rw [(ih c.stem).1 w0 hg, groupForms_append_singleton]
        | none =>
          rw [getOrCreate_ret_of_none _ _ hg] at hw
          rw [← hw]
          show [(c.form, [c.sentence])] = groupForms (callsFor cs c.stem ++ [c])
          rw [(ih c.stem).2 hg]
          simp [groupForms, dedupFirst]
      · intro h
        rw [dictGet_getOrCreate_self] at h
        exact Option.noConfusion h
    · have hst2 : ¬ (c.stem = st) := fun hh => hst hh.symm
      rw [dictGet_getOrCreate_ne _ _ hst, if_neg hst2]
      simpa using ih st

theorem flattenForms_append (l₁ l₂ : List (Str × List Sentence)) :
    flattenForms (l₁ ++ l₂) = flattenForms l₁ ++ flattenForms l₂ := by
  induction l₁ with
  | nil => rfl
  | cons p rest ih =>
    obtain ⟨k, v⟩ := p
    simp [flattenForms, ih]

theorem countS_append (x : Sentence) (a b : List Sentence) :
    countS x (a ++ b) = countS x a + countS x b := by
  unfold countS
  rw [List.filter_append, List.length_append]

theorem countS_singleton (x s : Sentence) :
    countS x [s] = if s = x then 1 else 0 := by
  by_cases h : s = x <;> simp [countS, h]

theorem countS_flatten_dictSet (x s : Sentence) (f : Str) :
    ∀ (fs : List (Str × List Sentence)) (g : List Sentence),
      dictGet fs f = some g →
      countS x (flattenForms (dictSet fs f (g ++ [s]))) =
        countS x (flattenForms fs) + (if s = x then 1 else 0) := by
  intro fs
  induction fs with
  | nil =>
    intro g h
    simp [dictGet] at h
  | cons p rest ih =>
    intro g h
    obtain ⟨k, v⟩ := p
    by_cases hk : k = f
    · simp only [dictGet, if_pos hk] at h
      have hv := Option.some.inj h
      subst hv
      simp only [dictSet, if_pos hk, flattenForms]
      rw [countS_append, countS_append, countS_append, countS_singleton]
      omega
    · simp only [dictGet, if_neg hk] at h
      simp only [dictSet, if_neg hk, flattenForms]
      rw [countS_append, countS_append, ih g h]
      omega

theorem countS_flatten_appendFS (fs : List (Str × List Sentence)) (f : Str)
    (s x : Sentence) :
    countS x (flattenForms (appendFormSentence fs f s)) =
      countS x (flattenForms fs) + (if s = x then 1 else 0) := by
  unfold appendFormSentence
  cases hg : dictGet fs f with
  | some g => exact countS_flatten_dictSet x s f fs g hg
  | none =>
    rw [flattenForms_append]
    simp only [flattenForms, List.append_nil]
    rw [countS_append, countS_singleton]

theorem countCallS_append_singleton (l : List Call) (c : Call) (x : Sentence) :
    countCallS x (l ++ [c]) =
      countCallS x l + (if c.sentence = x then 1 else 0) := by
  unfold countCallS
  rw [List.filter_append]
  by_cases h : c.sentence = x <;> simp [h]

theorem countS_flatten_groupForms (l : List Call) (x : Sentence) :
    countS x (flattenForms (groupForms l)) = countCallS x l := by
  induction l using List.reverseRecOn with
  | nil => rfl
  | append_singleton l c ih =>
    rw [groupForms_append_singleton, countS_flatten_appendFS, ih,
      countCallS_append_singleton]

/-- Trie build/lookup round trip: after `WordTree.__build`, walking any
string finds exactly the Word the registry holds under that string. -/
theorem trieFind_buildTree (reg : RegState) (q : Str) :
    trieFind (buildTree reg) q = dictGet reg.words q := by
  unfold buildTree
  rw [trieFind_buildFold, trieFind_root_empty]
  by_cases h : (dictGet reg.words q).isSome
  · rw [if_pos ⟨h, mem_sortKeys.mpr (dictGet_isSome_iff.mp h)⟩]
  · rw [if_neg (fun hc => h hc.1)]
    cases hh : dictGet reg.words q with
    | some v => rw [hh] at h; simp at h
    | none => rfl

theorem search_no_space (root : Node) (stemF : Str → Str) {q : Str}
    (hq : ' ' ∉ q) : search root stemF q = .ok (searchWord root stemF q) := by
  unfold search
  rw [if_neg hq]

theorem search_groupForms (stemF : Str → Str) (cs : List Call) {q : Str}
    (hq : ' ' ∉ q) :
    search (buildTree (runCalls cs)) stemF q =
      .ok (flattenForms (groupForms (callsFor cs (stemF q)))) := by
  rw [search_no_space _ _ hq]
  unfold searchWord
  rw [trieFind_buildTree]
  cases h : dictGet (runCalls cs).words (stemF q) with
  | some w =>
    show Except.ok (flattenForms w.forms) =
      Except.ok (flattenForms (groupForms (callsFor cs (stemF q))))
    rw [(runCalls_forms_spec cs (stemF q)).1 w h]
  | none =>
    rw [(runCalls_forms_spec cs (stemF q)).2 h]
    rfl

theorem updateArticles_cons_false (getA : Nat → Article) {k a : Article}
    (grp : List (Str × List Sentence)) (form : Str) (s : Sentence)
    (rest : List (Article × List (Str × List Sentence)))
    (h : articleEqPy k a = .ok false) :
    updateArticles getA a form s ((k, grp) :: rest) = do
      let rest' ← updateArticles getA a form s rest
      return (k, grp) :: rest' := by
  have hstep : updateArticles getA a form s ((k, grp) :: rest) = do
      let b ← articleEqPy k a
      if b then
        match dictGet grp form with
        | some l => do
          let c ← pyContainsSentence getA l s
          if c then return (k, grp) :: rest
          else return (k, dictSet grp form (l ++ [s])) :: rest
        | none => return (k, grp ++ [(form, [s])]) :: rest
      else do
        let rest' ← updateArticles getA a form s rest
        return (k, grp) :: rest' := rfl
  rw [hstep, h]
  rfl

theorem articleEqPy_false_of_text_ne {a b : Article} (hid : ¬ (a.aid = b.aid))
    (hau : a.authors = b.authors) (ht : a.title = b.title)
    (htx : ¬ (a.text = b.text)) : articleEqPy a b = .ok false := by
  unfold articleEqPy
  rw [if_neg hid, if_neg (fun hc => hc hau), if_neg (fun hc => hc ht),
    if_pos htx]

/-- C1: trie round trip.  For any call history, any stemmer and any
space-free query the stemmer fixes (the claim quantifies over registered
stems passed as the query): if the query is a registered stem, `search`
after construction returns exactly the flattened sentence lists of the
Word object registered under it, and if it is not a registered stem
(including proper prefixes of stems whose terminal node carries no
word), `search` returns the empty list. -/
theorem trie_roundtrip_search (stemF : Str → Str) (cs : List Call) (q : Str)
    (hq : ' ' ∉ q) (hfix : stemF q = q) :
    (∀ w, dictGet (runCalls cs).words q = some w →
      search (buildTree (runCalls cs)) stemF q = .ok (flattenForms w.forms))
    ∧ (dictGet (runCalls cs).words q = none →
      search (buildTree (runCalls cs)) stemF q = .ok []) := by
  constructor
  · intro w h
    rw [search_no_space _ _ hq]
    unfold searchWord
    rw [trieFind_buildTree, hfix, h]
  · intro h
    rw [search_no_space _ _ hq]
    unfold searchWord
    rw [trieFind_buildTree, hfix, h]

/-- C1 witness: concrete one-call registry; the registered stem dog
round-trips to its sentences, the absent stem cat yields the empty
list. -/
theorem trie_roundtrip_search_witness :
    search (buildTree (runCalls [callC1])) stemId ['d','o','g'] =
      .ok (flattenForms wC1.forms)
    ∧ search (buildTree (runCalls [callC1])) stemId ['c','a','t'] = .ok [] :=
  ⟨(trie_roundtrip_search stemId [callC1] ['d','o','g'] (by decide) rfl).1 wC1 rfl,
   (trie_roundtrip_search stemId [callC1] ['c','a','t'] (by decide) rfl).2 rfl⟩

/-- C2: registry get-or-create semantics.  After any call sequence the
`count` of the Word at a stem equals the number of calls with that stem
(so it is 1 after the creating call), `len(forms[form])` equals the
number of calls with that (stem, form) pair regardless of sentence
identity (no duplicate-sentence filtering), and every single call
increments the count at its stem by exactly 1. -/
theorem registry_getOrCreate_counts (cs : List Call) (reg : RegState)
    (c : Call) (st fm : Str) :
    wordCountAt (runCalls cs) st = countStemCalls cs st
    ∧ formLenAt (runCalls cs) st fm = countFormCalls cs st fm
    ∧ wordCountAt (getOrCreate reg c).1 c.stem = wordCountAt reg c.stem + 1 := by
  refine ⟨wordCountAt_runCalls cs st, formLenAt_runCalls cs st fm, ?_⟩
  rw [wordCountAt_getOrCreate]
  simp

/-- C3 counterexample: two Article objects with identical title and
identical author list but different body text do not collapse under a
single key in `Word.articles` — the grouping dict ends with two distinct
Article keys, one sentence under each, because the dataclass `__eq__`
also compares the body text. -/
theorem article_identity_counterexample :
    wordArticles envC3 wC3 =
      .ok [(aC3, [(['k'], [sC3a])]), (bC3, [(['k'], [sC3b])])]
    ∧ aC3.title = bC3.title ∧ aC3.authors = bC3.authors
    ∧ ¬ (aC3.text = bC3.text) ∧ ¬ (aC3 = bC3) :=
  ⟨rfl, rfl, rfl, by decide, by decide⟩

/-- C3 amended: two Article instances with identical title and author
list but different body text are NOT equal for grouping purposes — the
dataclass equality also compares the body text, so in `Word.articles`
the sentences of the two articles end under two distinct Article keys
instead of collapsing into one. -/
theorem article_identity_grouping_amended (env : Nat → Article)
    (a b : Article) (f : Str) (s t : Sentence) (w : Word)
    (hid : ¬ (a.aid = b.aid)) (hau : a.authors = b.authors)
    (ht : a.title = b.title) (htx : ¬ (a.text = b.text))
    (hs : env s.articleId = a) (hbt : env t.articleId = b)
    (hw : w.forms = [(f, [s, t])]) :
    wordArticles env w = .ok [(a, [(f, [s])]), (b, [(f, [t])])] := by
  unfold wordArticles
  rw [hw]
  have e1 : articlesOfForm env f [s, t] []
      = articlesOfForm env f [t] [(a, [(f, [s])])] := by
    show (updateArticles env (env s.articleId) f s [] >>=
      fun acc' => articlesOfForm env f [t] acc') = _
    rw [hs]
    rfl
  have e2 : articlesOfForm env f [t] [(a, [(f, [s])])]
      = .ok [(a, [(f, [s])]), (b, [(f, [t])])] := by
    show (updateArticles env (env t.articleId) f t [(a, [(f, [s])])] >>=
      fun acc' => articlesOfForm env f [] acc') = _
    rw [hbt,
      updateArticles_cons_false env [(f, [s])] f t []
        (articleEqPy_false_of_text_ne hid hau ht htx)]
    rfl
  have e3 : articlesLoop env [(f, [s, t])] []
      = articlesOfForm env f [s, t] [] >>= fun acc' => articlesLoop env [] acc' :=
    rfl
  rw [e3, e1, e2]
  rfl

/-- C3 witness: the amended grouping statement at the concrete fixture
pair of articles. -/
theorem article_identity_grouping_amended_witness :
    wordArticles envC3 wC3 =
      .ok [(aC3, [(['k'], [sC3a])]), (bC3, [(['k'], [sC3b])])] :=
  article_identity_grouping_amended envC3 aC3 bC3 ['k'] sC3a sC3b wC3
    (by decide) rfl rfl (by decide) rfl rfl rfl

/-- C4 counterexample: a word whose two forms cat and cats both record
the same sentence.  Single-word search returns that sentence twice, not
once — the code concatenates the per-form lists and performs no set
deduplication. -/
theorem single_word_search_dedup_counterexample :
    search (buildTree (runCalls callsC4)) stemId ['c','a','t'] = .ok [sC4, sC4]
    ∧ countS sC4 [sC4, sC4] = 2 :=
  ⟨rfl, rfl⟩

/-- C4 amended: single-word search returns each sentence once per
(form, occurrence) recorded for the queried stem — the number of copies
of a sentence in the result equals the number of get-or-create calls
for that stem carrying that sentence, with no deduplication. -/
theorem single_word_search_multiplicity (stemF : Str → Str) (cs : List Call)
    (q : Str) (x : Sentence) (hq : ' ' ∉ q) :
    ∃ r, search (buildTree (runCalls cs)) stemF q = .ok r
      ∧ countS x r = countCallS x (callsFor cs (stemF q)) :=
  ⟨flattenForms (groupForms (callsFor cs (stemF q))),
   search_groupForms stemF cs hq,
   countS_flatten_groupForms _ x⟩

/-- C4 witness: the multiplicity statement at the two-form fixture. -/
theorem single_word_search_multiplicity_witness :
    ∃ r, search (buildTree (runCalls callsC4)) stemId ['c','a','t'] = .ok r
      ∧ countS sC4 r = countCallS sC4 (callsFor callsC4 (stemId ['c','a','t'])) :=
  single_word_search_multiplicity stemId callsC4 ['c','a','t'] sC4 (by decide)

/-- C5: with the sentence кот сидит на окне indexed once, both the
phrase query кот сидит and the reversed query сидит кот raise
`TypeError: unhashable type` at `set(sentences)` instead of returning
the claimed results ([the sentence] and [] respectively): `Sentence` is
a mutable dataclass with no `__hash__`, so the adjacency logic is never
reached. -/
theorem phrase_adjacency_typeerror :
    search (buildTree (runCalls callsC5)) ruStem qC5 =
      .error .typeErrorUnhashable
    ∧ search (buildTree (runCalls callsC5)) ruStem qC5rev =
      .error .typeErrorUnhashable :=
  ⟨rfl, rfl⟩

/-- C6: with word a in sentences {1,2,3} and word b in sentences
{2,3,4}, the phrase query a b raises `TypeError: unhashable type` at the
first `set(sentences)` — no intersection of candidate sets is ever
computed. -/
theorem phrase_intersection_typeerror :
    search (buildTree (runCalls callsC6)) stemId ['a',' ','b'] =
      .error .typeErrorUnhashable :=
  rfl

/-- C7: a phrase containing an unregistered word returns the empty list
only when the failing word precedes every resolving word.  With cat
registered and dog not, cat dog raises `TypeError: unhashable type` at
`set(sentences)` for cat before dog is even looked up, while dog cat
returns the empty list. -/
theorem phrase_failfast_typeerror :
    search (buildTree (runCalls callsC7)) stemId
      ['c','a','t',' ','d','o','g'] = .error .typeErrorUnhashable
    ∧ search (buildTree (runCalls callsC7)) stemId
      ['d','o','g',' ','c','a','t'] = .ok [] :=
  ⟨rfl, rfl⟩

/-- C8: global deduplication invariant.  After any call sequence the
registry holds at most one entry per stem (its key list has no
duplicates), every stored Word carries its key as its stem, the Word
identity (wid) stored under a stem survives any further call sequence
unchanged, and a call with an already-registered stem returns the object
with the existing identity (a mutation of the existing instance), which
remains the stored one. -/
theorem registry_singleton_invariant (cs ds : List Call) (c : Call)
    (st : Str) (w : Word) :
    (((runCalls cs).words).map Prod.fst).Nodup
    ∧ (dictGet (runCalls cs).words st = some w → w.stem = st)
    ∧ (dictGet (runCalls cs).words st = some w →
        ∃ w', dictGet (runCalls (cs ++ ds)).words st = some w'
          ∧ w'.wid = w.wid ∧ w'.stem = w.stem)
    ∧ (dictGet (runCalls cs).words c.stem = some w →
        (getOrCreate (runCalls cs) c).2.wid = w.wid
        ∧ dictGet ((getOrCreate (runCalls cs) c).1).words c.stem =
            some (getOrCreate (runCalls cs) c).2) := by
  refine ⟨keys_nodup_runCalls cs,
    fun h => stem_eq_key_runCalls cs st w h,
    fun h => runCalls_stable cs ds st w h,
    fun h => ⟨?_, dictGet_getOrCreate_self _ _⟩⟩
  rw [getOrCreate_ret_of_some _ _ _ h]

/-- C8 witness: the invariant applied to the one-call registry for fox,
extended by a repeated call: the identity under the stem survives and
the repeated construction returns the existing identity. -/
theorem registry_singleton_invariant_witness :
    wC8.stem = ['f','o','x']
    ∧ (∃ w', dictGet (runCalls ([callC8] ++ [callC8])).words ['f','o','x'] =
          some w' ∧ w'.wid = wC8.wid ∧ w'.stem = wC8.stem)
    ∧ (getOrCreate (runCalls [callC8]) callC8).2.wid = wC8.wid :=
  ⟨(registry_singleton_invariant [callC8] [callC8] callC8 ['f','o','x'] wC8).2.1 rfl,
   (registry_singleton_invariant [callC8] [callC8] callC8 ['f','o','x'] wC8).2.2.1 rfl,
   ((registry_singleton_invariant [callC8] [callC8] callC8 ['f','o','x'] wC8).2.2.2 rfl).1⟩

/-- C9: query-path totality fails.  With the stem aa registered, the
input aa aa (a string, hence a legal query) makes `search` raise
`TypeError: unhashable type` through the phrase path instead of
returning a list. -/
theorem search_totality_typeerror :
    search (buildTree (runCalls callsC9)) stemId ['a','a',' ','a','a'] =
      .error .typeErrorUnhashable :=
  rfl

/-- C10: single-word search result order.  For any call history and any
space-free query, the returned list is the concatenation of the per-form
sentence lists, forms taken in first-insertion order (first occurrence
of each form in the call history for the queried stem) and each list in
call (append) order — exactly `flattenForms (groupForms ...)`over the
history. -/
theorem search_result_order (stemF : Str → Str) (cs : List Call) (q : Str)
    (hq : ' ' ∉ q) :
    search (buildTree (runCalls cs)) stemF q =
      .ok (flattenForms (groupForms (callsFor cs (stemF q)))) :=
  search_groupForms stemF cs hq

/-- C10 witness: the order statement at a three-call fixture (forms run,
ran; result [sC10a, sC10b, sC10b]). -/
theorem search_result_order_witness :
    search (buildTree (runCalls callsC10)) stemId ['r','u','n'] =
      .ok (flattenForms (groupForms (callsFor callsC10 (stemId ['r','u','n'])))) :=
  search_result_order stemId callsC10 ['r','u','n'] (by decide)

end WTS
